import Mathlib

/-!
Verification of the PTDF sensitivity engine of the Egret repository
(`egret/data/ptdf_utils.py` and the expression builders of
`egret/model_library/transmission/bus.py`).

The numeric type is `ℚ` (all the Python arithmetic here is exact real
arithmetic on `float` values; we verify the algebra, not the rounding).
Vectors are `List ℚ`, matrices `List (List ℚ)`, and the opaque sparse
factorization object `MLU` is a function field, as the spec treats it as a
black box that answers `solve(b, trans)` queries.
-/

namespace Egret

/-- Association-list lookup, the model of a Python `dict` read.
Python dictionaries have unique keys, so the first match is the match. -/
def alookup {κ α : Type} [DecidableEq κ] : List (κ × α) → κ → Option α
  | [], _ => none
  | (k, v) :: rest, key => if key = k then some v else alookup rest key

/-- Position of the first element satisfying `p`; the model of the
name-to-index maps (`branch_n : i for i, branch_n in enumerate(keys)`). -/
def indexOfP {α : Type} (p : α → Bool) : List α → Option ℕ
  | [] => none
  | a :: l => if p a then some 0 else (indexOfP p l).map (· + 1)

/-- Dot product of two dense vectors (`row @ vec` in numpy). -/
def dot (v w : List ℚ) : ℚ := (List.zipWith (· * ·) v w).sum

/-- Elementwise vector addition. -/
def vadd (v w : List ℚ) : List ℚ := List.zipWith (· + ·) v w

/-- Elementwise negation (`-v`). -/
def vneg (v : List ℚ) : List ℚ := v.map (fun x => -x)

/-- Scalar multiple (`c * v`). -/
def smul (c : ℚ) (v : List ℚ) : List ℚ := v.map (fun x => c * x)

/-- Matrix-vector product (`A @ x`): one dot product per row. -/
def matVec (A : List (List ℚ)) (x : List ℚ) : List ℚ := A.map (fun row => dot row x)

/-- `np.insert(l, i, v)`: insert `v` so that it lands at position `i`. -/
def np_insert {α : Type} (l : List α) (i : ℕ) (v : α) : List α :=
  l.take i ++ v :: l.drop i

/-- `np.delete(l, i)`: remove the element at position `i`. -/
def np_delete {α : Type} (l : List α) (i : ℕ) : List α :=
  l.take i ++ l.drop (i + 1)

/-- `np.zeros(n)`. -/
def zeros (n : ℕ) : List ℚ := List.replicate n 0

/-! ## Limit policy (`VirtualPTDFMatrix._set_lazy_limits`, lines 264-299,
and `VirtualFDFpqMatrix._set_lazy_vm_limits`, lines 1027-1041)

Per entry of the limits array the code computes
`enforced = max(L*(1+rel_flow_tol), L+abs_flow_tol)` and
`lazy = min(L*(1+lazy_rel_flow_tol), enforced)`. -/

/-- One entry of `_set_lazy_limits`: the `(enforced, lazy)` pair derived
from a nominal limit `L` and the three tolerances. -/
def set_lazy_limits (L rel_tol abs_tol lazy_tol : ℚ) : ℚ × ℚ :=
  let enforced := max (L * (1 + rel_tol)) (L + abs_tol)
  let lazy := min (L * (1 + lazy_tol)) enforced
  (enforced, lazy)

/-! ## Branch filtering (`VirtualPTDFMatrix._get_filtered_lines`, lines 213-262) -/

/-- Bus attribute record as seen by the filter: `base_kv` may be missing
from the data dictionary. -/
structure BusData where
  base_kv : Option ℚ
deriving DecidableEq

/-- Branch endpoint names, as read by `_get_filtered_lines`. -/
structure BranchData where
  from_bus : String
  to_bus : String
deriving DecidableEq

/-- The per-branch body of the `_get_filtered_lines` loop: `true` iff the
branch index is appended to `branch_mask`.  `one` is
`kv_threshold_type == 'one'`; `fbt`/`tbt` mirror the source flags. -/
def branchRetained (one : Bool) (kv_limit : ℚ) (fb tb : BusData) : Bool :=
  let fbt : Bool :=
    match fb.base_kv with
    | none => true
    | some kv => if kv < kv_limit then false else true
  if fbt && one then true
  else
    let tbt : Bool :=
      match tb.base_kv with
      | none => true
      | some kv => decide (kv_limit ≤ kv)
    if fbt && tbt then true
    else if one && tbt then true
    else false

/-- `_get_filtered_lines` with a threshold set: the list of retained branch
indices (`branch_mask`).  `busOf` is the bus data dictionary (the network
invariant guarantees every endpoint resolves). -/
def get_filtered_lines (one : Bool) (kv_limit : ℚ) (branches : List BranchData)
    (busOf : String → BusData) : List ℕ :=
  (List.range branches.length).filter (fun i =>
    let br := branches.getD i ⟨"", ""⟩
    branchRetained one kv_limit (busOf br.from_bus) (busOf br.to_bus))

/-- A terminal bus passes the threshold test iff its `base_kv` is missing
(conservatively treated as large) or is at least the threshold. -/
def busPasses (kv_limit : ℚ) (b : BusData) : Bool :=
  match b.base_kv with
  | none => true
  | some kv => decide (kv_limit ≤ kv)

/-! ## Coefficient truncation (`get_vm_expr_ptdf_approx`, bus.py lines 655-690,
and `get_ploss_expr_ptdf_approx`, lines 532-563)

A `(bus, coef)` pair enters the linear expression iff
`abs(coef) >= ptdf_tol` where `ptdf_tol = max(abs_ptdf_tol, rel_ptdf_tol*max_coef)`
and `max_coef = np.abs(row).max()`. -/

/-- `np.abs(row).max()` over the coefficients of a `(bus, coef)` row
(0 for an empty row; the engine only serves nonempty rows). -/
def rowAbsMax (row : List (String × ℚ)) : ℚ :=
  (row.map (fun bc => |bc.2|)).foldl max 0

/-- The `(bus, coef)` pairs that survive the truncation loop of
`get_vm_expr_ptdf_approx` / `get_ploss_expr_ptdf_approx`. -/
def expr_included_pairs (row : List (String × ℚ)) (abs_tol rel_tol : ℚ) :
    List (String × ℚ) :=
  let max_coef := rowAbsMax row
  let ptdf_tol := max abs_tol (rel_tol * max_coef)
  row.filter (fun bc => decide (ptdf_tol ≤ |bc.2|))

/-! ## The sensitivity engine (`VirtualPTDFMatrix`)

The factorization `MLU` and the per-contingency compensation factorizations
`U`, `L` (built in `tx_calc.calculate_ptdf_factorization`, outside this
module) are opaque solve-capable objects; we carry their `solve` methods as
function fields, exactly the contract the spec assigns them. -/

/-- Errors of the query surface.  `unknownEntity` models the failure of a
name-to-index dictionary access for an unregistered branch/bus/interface;
`unknownContingency` the failure of the contingency-compensator lookup. -/
inductive EgretError where
  | unknownEntity (name : String)
  | unknownContingency (name : String)
deriving DecidableEq

/-- Compensation factors of one registered contingency
(`contingency_compensators[cn]` as used by `_get_contingency_row` and
`_calculate_PFV_delta`): the rank-1 update data `M`, `W`, `Wbar`, `c`, the
projections `Pc`, `Pr`, the inner factorization solves, the outaged branch
name, and the optional phase-shift angle compensator. -/
structure ContingencyComp where
  branch_out : String
  M : List ℚ
  W : List ℚ
  Wbar : List ℚ
  c : ℚ
  Pc : List (List ℚ)
  Pr : List (List ℚ)
  U_solveT : List ℚ → List ℚ
  L_solveT : List ℚ → List ℚ
  VA_compensator : Option (List ℚ)

/-- The immutable part of a `VirtualPTDFMatrix`: everything `__init__` and
`_calculate_factorization` freeze at construction.  `MLU_solve` and
`MLU_solveT` are `MLU.solve(., trans='N'/'T')`. -/
structure VirtualPTDFMatrix where
  branches_keys : List String
  buses_keys : List String
  reference_bus : String
  interface_keys : List String
  B_dA : List (List ℚ)
  B_dA_masked : List (List ℚ)
  B_dA_I : List (List ℚ)
  phi_adjust_array : List ℚ
  phase_shift_flow_adjuster_array : List ℚ
  MLU_solve : List ℚ → List ℚ
  MLU_solveT : List ℚ → List ℚ
  contingency_compensators : List (String × ContingencyComp)
  contingencies : List String

/-- `self._branchname_to_index_map[bn]` (built by enumerating
`branches_keys`). -/
def VirtualPTDFMatrix.branchIndex (e : VirtualPTDFMatrix) (bn : String) : Option ℕ :=
  indexOfP (fun k => k == bn) e.branches_keys

/-- `self._busname_to_index_map[bn]`. -/
def VirtualPTDFMatrix.busIndex (e : VirtualPTDFMatrix) (bn : String) : Option ℕ :=
  indexOfP (fun k => k == bn) e.buses_keys

/-- `self.interfacename_to_index_map[i_n]`. -/
def VirtualPTDFMatrix.interfaceIndex (e : VirtualPTDFMatrix) (iname : String) :
    Option ℕ :=
  indexOfP (fun k => k == iname) e.interface_keys

/-- `self.buses_keys_no_ref = tuple(bus for bus in buses_keys if bus != reference_bus)`. -/
def VirtualPTDFMatrix.buses_keys_no_ref (e : VirtualPTDFMatrix) : List String :=
  e.buses_keys.filter (fun bus => bus ≠ e.reference_bus)

/-- The mutable caches of the engine (`self._ptdf_rows`,
`self._contingency_rows`), plus an instrumentation counter of factorization
solve calls, as the spec's testable property 1 prescribes. -/
structure PTDFRowCache where
  ptdf_rows : List (String × List ℚ)
  interface_rows : List (String × List ℚ)
  contingency_rows : List ((String × String) × List ℚ)
  solve_count : ℕ
deriving DecidableEq

/-- The PTDF row computed on a cache miss for branch index `i`:
`-MLU.solve(B_dA[i].toarray()[0], trans='T')`. -/
def rowFromIdx (e : VirtualPTDFMatrix) (i : ℕ) : List ℚ :=
  vneg (e.MLU_solveT (e.B_dA.getD i []))

/-- `VirtualPTDFMatrix._get_ptdf_row` (lines 301-309): on a hit return the
cached vector and leave the state alone; on a miss look the branch up in
the index map (a failed lookup raises before any state is touched), do one
transpose solve, store the row, return it. -/
def getPTDFRow (e : VirtualPTDFMatrix) (s : PTDFRowCache) (bn : String) :
    Except EgretError (List ℚ) × PTDFRowCache :=
  match alookup s.ptdf_rows bn with
  | some row => (Except.ok row, s)
  | none =>
    match e.branchIndex bn with
    | none => (Except.error (EgretError.unknownEntity bn), s)
    | some i =>
      let row := rowFromIdx e i
      (Except.ok row,
       { s with ptdf_rows := (bn, row) :: s.ptdf_rows,
                solve_count := s.solve_count + 1 })

/-- `VirtualPTDFMatrix.get_branch_ptdf_const` (lines 349-358):
`ptdf_row @ phi_adjust_array + phase_shift_flow_adjuster_array[branch_idx]`. -/
def get_branch_ptdf_const (e : VirtualPTDFMatrix) (s : PTDFRowCache) (bn : String) :
    Except EgretError ℚ × PTDFRowCache :=
  match getPTDFRow e s bn with
  | (Except.error err, s1) => (Except.error err, s1)
  | (Except.ok row, s1) =>
    match e.branchIndex bn with
    | none => (Except.error (EgretError.unknownEntity bn), s1)
    | some i =>
      (Except.ok (dot row e.phi_adjust_array +
        e.phase_shift_flow_adjuster_array.getD i 0), s1)

/-- The compensated row `_get_contingency_row` computes on a miss for
branch index `i` and compensator `cc`:
`hatF = U.solve((B_dA[i] @ Pc), 'T')`,
`delF = Wbar * ((-c) * (W.T @ hatF))`,
`row = Pr.T @ L.solve(hatF + delF, 'T')`. -/
def contRowFromIdx (e : VirtualPTDFMatrix) (cc : ContingencyComp) (i : ℕ) :
    List ℚ :=
  let hatF := cc.U_solveT (matVec cc.Pc.transpose (e.B_dA.getD i []))
  let delF := cc.Wbar.map (fun w => w * ((-cc.c) * dot cc.W hatF))
  matVec cc.Pr.transpose (cc.L_solveT (vadd hatF delF))

/-- `VirtualPTDFMatrix._get_contingency_row` (lines 311-323).  On a miss the
branch index map is read first, then the compensator container.
Modelled from the spec: the compensator container is produced by
`tx_calc.calculate_ptdf_factorization` (not part of this module); per the
spec, a contingency name that was not registered at construction fails with
`UnknownContingencyError`, surfaced immediately.  The hit/store discipline
and the `hatF`/`delF`/`Pr` combination mirror the source lines. -/
def getContingencyRow (e : VirtualPTDFMatrix) (s : PTDFRowCache)
    (cn bn : String) : Except EgretError (List ℚ) × PTDFRowCache :=
  match alookup s.contingency_rows (cn, bn) with
  | some row => (Except.ok row, s)
  | none =>
    match e.branchIndex bn with
    | none => (Except.error (EgretError.unknownEntity bn), s)
    | some i =>
      match alookup e.contingency_compensators cn with
      | none => (Except.error (EgretError.unknownContingency cn), s)
      | some cc =>
        let row := contRowFromIdx e cc i
        (Except.ok row,
         { s with contingency_rows := ((cn, bn), row) :: s.contingency_rows,
                  solve_count := s.solve_count + 2 })

/-- The interface row computed on a miss for interface index `i`:
`MLU.solve(B_dA_I[i].toarray()[0], trans='T')` (no negation, unlike the
branch rows). -/
def interfaceRowFromIdx (e : VirtualPTDFMatrix) (i : ℕ) : List ℚ :=
  e.MLU_solveT (e.B_dA_I.getD i [])

/-- `VirtualPTDFMatrix._get_interface_row` (lines 325-333): the same
hit/solve/store discipline over the `_interface_rows` cache. -/
def getInterfaceRow (e : VirtualPTDFMatrix) (s : PTDFRowCache)
    (iname : String) : Except EgretError (List ℚ) × PTDFRowCache :=
  match alookup s.interface_rows iname with
  | some row => (Except.ok row, s)
  | none =>
    match e.interfaceIndex iname with
    | none => (Except.error (EgretError.unknownEntity iname), s)
    | some i =>
      let row := interfaceRowFromIdx e i
      (Except.ok row,
       { s with interface_rows := (iname, row) :: s.interface_rows,
                solve_count := s.solve_count + 1 })

/-- `VA[self.ref_bus_mask]`.  Modelled from the spec: `ref_bus_mask` is
built in `tx_calc` (outside this module); per the spec the reduced bus
space is the full bus ordering with the reference entry removed and the
relative order preserved. -/
def removeRefMask (e : VirtualPTDFMatrix) (VA : List ℚ) : List ℚ :=
  np_delete VA ((e.busIndex e.reference_bus).getD 0)

/-- `VirtualPTDFMatrix._calculate_PFV_delta` (lines 419-453), unmasked
path (`masked=False`): negate and reduce the angles, add the angle
compensator of an outaged phase shifter if present, push the rank-1
correction through the factorization, multiply by `B_dA`, and finally
overwrite the outaged branch entry with the negated base flow. -/
def calculate_PFV_delta (e : VirtualPTDFMatrix) (cn : String)
    (PFV VA : List ℚ) : Except EgretError (List ℚ) :=
  match alookup e.contingency_compensators cn with
  | none => Except.error (EgretError.unknownContingency cn)
  | some comp =>
    let VAm := vneg (removeRefMask e VA)
    let VA0 := match comp.VA_compensator with
      | some vc => vadd VAm vc
      | none => VAm
    let VA_delta0 := e.MLU_solve (comp.M.map (fun x => x * ((-comp.c) * dot comp.M VA0)))
    let VA_delta := match comp.VA_compensator with
      | some vc => vadd VA_delta0 vc
      | none => VA_delta0
    let PF_delta := matVec e.B_dA VA_delta
    match e.branchIndex comp.branch_out with
    | none => Except.error (EgretError.unknownEntity comp.branch_out)
    | some k => Except.ok (PF_delta.set k (-(PFV.getD k 0)))

/-- `VirtualPTDFMatrix._insert_reference_bus` (lines 413-414):
`np.insert(bus_array, busname_to_index_map[reference_bus], val)`. -/
def insert_reference_bus (e : VirtualPTDFMatrix) (v : List ℚ) (val : ℚ) :
    Option (List ℚ) :=
  (e.busIndex e.reference_bus).map (fun r => np_insert v r val)

/-- `VirtualPTDFMatrix._remove_reference_bus` (lines 416-417):
`np.delete(bus_array, busname_to_index_map[reference_bus])`. -/
def remove_reference_bus (e : VirtualPTDFMatrix) (v : List ℚ) : Option (List ℚ) :=
  (e.busIndex e.reference_bus).map (fun r => np_delete v r)

/-- The contingency-congestion accumulation loop of `calculate_LMP`
(lines 579-583): for every contingency constraint dual, skip zero duals and
add `(-dual) * cached_row`; a dual naming a row that was never cached is a
failed dictionary access. -/
def accumulate_LMPCC (s : PTDFRowCache) :
    List ((String × String) × ℚ) → List ℚ → Option (List ℚ)
  | [], acc => some acc
  | (key, dv) :: rest, acc =>
    if dv = 0 then accumulate_LMPCC s rest acc
    else
      match alookup s.contingency_rows key with
      | none => none
      | some row => accumulate_LMPCC s rest (vadd acc (smul (-dv) row))

/-- `VirtualPTDFMatrix.calculate_LMP` (lines 538-589) after the dual
vectors `PFD` (masked branches) and `PFID` (interfaces) and the list of
contingency duals have been read off the optimization model: back-solve the
negated dual combinations through the transpose factorization, sum the
energy, branch-congestion, interface and contingency-congestion components
over the reference-eliminated bus space, then reinsert the reference bus at
the energy price. -/
def calculate_LMP (e : VirtualPTDFMatrix) (s : PTDFRowCache)
    (PFD PFID : List ℚ) (cont_duals : List ((String × String) × ℚ))
    (LMPE : ℚ) : Option (List ℚ) :=
  let B_PFD := vneg (matVec e.B_dA_masked.transpose PFD)
  let I_PFD := vneg (matVec e.B_dA_I.transpose PFID)
  let LMPC := e.MLU_solveT B_PFD
  let LMPI := e.MLU_solveT I_PFD
  let base := vadd LMPC LMPI
  let LMPsum :=
    if e.contingencies.isEmpty then some base
    else (accumulate_LMPCC s cont_duals (zeros LMPC.length)).map (fun l => vadd base l)
  LMPsum.bind (fun l => insert_reference_bus e (l.map (fun x => LMPE + x)) LMPE)

/-! ## Request sequences over the row caches (for the ordering guarantee) -/

/-- The row `_get_ptdf_row` computes for `bn` from the frozen factorization
alone (`none` when the branch is unregistered). -/
def rowOf (e : VirtualPTDFMatrix) (bn : String) : Option (List ℚ) :=
  (e.branchIndex bn).map (rowFromIdx e)

/-- An entity key of the query surface: a branch PTDF row, an interface
row, or a post-contingency `(contingency, branch)` row. -/
inductive ReqKey where
  | branch (bn : String)
  | iface (iname : String)
  | cont (cn bn : String)
deriving DecidableEq

/-- The cache entry a key addresses in the current state. -/
def cacheView (s : PTDFRowCache) : ReqKey → Option (List ℚ)
  | ReqKey.branch bn => alookup s.ptdf_rows bn
  | ReqKey.iface iname => alookup s.interface_rows iname
  | ReqKey.cont cn bn => alookup s.contingency_rows (cn, bn)

/-- The vector the frozen factorization yields for a key, independent of
any cache state (`none` when the key is unregistered). -/
def computeOf (e : VirtualPTDFMatrix) : ReqKey → Option (List ℚ)
  | ReqKey.branch bn => rowOf e bn
  | ReqKey.iface iname => (e.interfaceIndex iname).map (interfaceRowFromIdx e)
  | ReqKey.cont cn bn =>
    match e.branchIndex bn, alookup e.contingency_compensators cn with
    | some i, some cc => some (contRowFromIdx e cc i)
    | _, _ => none

/-- One request against the engine: the state it leaves behind. -/
def stepReq (e : VirtualPTDFMatrix) (s : PTDFRowCache) : ReqKey → PTDFRowCache
  | ReqKey.branch bn => (getPTDFRow e s bn).2
  | ReqKey.iface iname => (getInterfaceRow e s iname).2
  | ReqKey.cont cn bn => (getContingencyRow e s cn bn).2

/-- One request against the engine: the value it returns. -/
def reqResult (e : VirtualPTDFMatrix) (s : PTDFRowCache) :
    ReqKey → Except EgretError (List ℚ)
  | ReqKey.branch bn => (getPTDFRow e s bn).1
  | ReqKey.iface iname => (getInterfaceRow e s iname).1
  | ReqKey.cont cn bn => (getContingencyRow e s cn bn).1

/-- A cache state is coherent when every cached entry is the vector the
frozen factorization yields for its key — true of every state reachable
from the empty cache built by `__init__`. -/
def Coherent (e : VirtualPTDFMatrix) (s : PTDFRowCache) : Prop :=
  ∀ q row, cacheView s q = some row → computeOf e q = some row

/-- Issue a sequence of row requests, threading the cache. -/
def runSeq (e : VirtualPTDFMatrix) (s : PTDFRowCache) : List ReqKey → PTDFRowCache
  | [] => s
  | k :: ks => runSeq e (stepReq e s k) ks

/-! ## Concrete example instances (3-bus-style miniature network data) -/

/-- Compensation factors of a one-branch outage example. -/
def exComp : ContingencyComp where
  branch_out := "b1"
  M := [1]
  W := [1]
  Wbar := [1]
  c := 1
  Pc := [[1]]
  Pr := [[1]]
  U_solveT := fun v => v
  L_solveT := fun v => v
  VA_compensator := none

/-- A miniature engine: buses `A` (reference) and `B`, branch `b1`, one
registered contingency `c1` outaging `b1`; the factorization of the 1x1
reduced matrix is modelled by an identity solve. -/
def exEngine : VirtualPTDFMatrix where
  branches_keys := ["b1"]
  buses_keys := ["A", "B"]
  reference_bus := "A"
  interface_keys := []
  B_dA := [[1]]
  B_dA_masked := [[1]]
  B_dA_I := []
  phi_adjust_array := [0]
  phase_shift_flow_adjuster_array := [0]
  MLU_solve := fun v => v
  MLU_solveT := fun v => v
  contingency_compensators := [("c1", exComp)]
  contingencies := ["c1"]

/-- The same miniature network without contingencies, whose solve always
answers in the 1-dimensional reduced bus space. -/
def exEngineLMP : VirtualPTDFMatrix where
  branches_keys := ["b1"]
  buses_keys := ["A", "B"]
  reference_bus := "A"
  interface_keys := []
  B_dA := [[1]]
  B_dA_masked := [[1]]
  B_dA_I := []
  phi_adjust_array := [0]
  phase_shift_flow_adjuster_array := [0]
  MLU_solve := fun v => [v.getD 0 0]
  MLU_solveT := fun v => [v.getD 0 0]
  contingency_compensators := []
  contingencies := []

/-- The cache state `__init__` leaves behind: empty dictionaries. -/
def emptyCache : PTDFRowCache where
  ptdf_rows := []
  interface_rows := []
  contingency_rows := []
  solve_count := 0

end Egret

namespace Egret

/-! ## Theorems for claims C1, C5, C6 -/

/-- C1, counterexample.  The claim asserts `|enforced| ≤ |lazy|` and both
`≥ |L|` for every nominal `L` and all nonnegative tolerances.  The code
computes `lazy = min(L*(1+lazy_tol), enforced)`, so at
`L = 1, rel_tol = 1, abs_tol = 0, lazy_tol = 0` we get `enforced = 2`,
`lazy = 1` and `|enforced| ≤ |lazy|` fails; and at
`L = -1, rel_tol = 0, abs_tol = 1/2, lazy_tol = 0` we get
`enforced = -1/2`, whose absolute value is below `|L| = 1`. -/
theorem set_lazy_limits_claimed_ordering_false :
    ¬ (|(set_lazy_limits 1 1 0 0).1| ≤ |(set_lazy_limits 1 1 0 0).2|) ∧
    ¬ (|(-1 : ℚ)| ≤ |(set_lazy_limits (-1) 0 (1/2) 0).1|) := by
  refine ⟨?_, ?_⟩
  · simp only [set_lazy_limits] ; norm_num
  · simp only [set_lazy_limits] ; norm_num
    rw [abs_of_pos (by norm_num : (0:ℚ) < 1/2)] ; norm_num

/-- C1, amended.  For a nonnegative nominal limit `L` (branch ratings and
voltage upper bounds are nonnegative) and nonnegative tolerances, the pair
computed by `_set_lazy_limits` satisfies the ordering the code enforces:
`|lazy| ≤ |enforced|`, and both are at least `|L|` (the lazy bound is the
tighter of the two, never below the nominal limit). -/
theorem set_lazy_limits_ordering (L rel_tol abs_tol lazy_tol : ℚ)
    (hL : 0 ≤ L) (hr : 0 ≤ rel_tol) (ha : 0 ≤ abs_tol) (hl : 0 ≤ lazy_tol) :
    |(set_lazy_limits L rel_tol abs_tol lazy_tol).2| ≤
      |(set_lazy_limits L rel_tol abs_tol lazy_tol).1| ∧
    |L| ≤ |(set_lazy_limits L rel_tol abs_tol lazy_tol).2| ∧
    |L| ≤ |(set_lazy_limits L rel_tol abs_tol lazy_tol).1| := by
  simp only [set_lazy_limits]
  have h1 : L ≤ L * (1 + rel_tol) := by nlinarith
  have h2 : L ≤ L + abs_tol := by linarith
  have h3 : L ≤ L * (1 + lazy_tol) := by nlinarith
  have henf : L ≤ max (L * (1 + rel_tol)) (L + abs_tol) := le_trans h1 (le_max_left _ _)
  have hlaz : L ≤ min (L * (1 + lazy_tol)) (max (L * (1 + rel_tol)) (L + abs_tol)) :=
    le_min h3 henf
  have hle : min (L * (1 + lazy_tol)) (max (L * (1 + rel_tol)) (L + abs_tol)) ≤
      max (L * (1 + rel_tol)) (L + abs_tol) := min_le_right _ _
  have henf0 : 0 ≤ max (L * (1 + rel_tol)) (L + abs_tol) := le_trans hL henf
  have hlaz0 : 0 ≤ min (L * (1 + lazy_tol)) (max (L * (1 + rel_tol)) (L + abs_tol)) :=
    le_trans hL hlaz
  rw [abs_of_nonneg hL, abs_of_nonneg henf0, abs_of_nonneg hlaz0]
  exact ⟨hle, hlaz, henf⟩

/-- C1, witness for the amended theorem at `L = 10, rel = 1/100,
abs = 2, lazy = 1/4`. -/
theorem set_lazy_limits_ordering_witness :
    |(set_lazy_limits 10 (1/100) 2 (1/4)).2| ≤
      |(set_lazy_limits 10 (1/100) 2 (1/4)).1| :=
  (set_lazy_limits_ordering 10 (1/100) 2 (1/4)
    (by norm_num) (by norm_num) (by norm_num) (by norm_num)).1

/-- C5.  `_get_filtered_lines` keeps index `i` iff `i < n` and the branch
passes the threshold rule; with `kv_threshold_type = 'both'` (`one = false`)
the rule is that both terminal buses pass, with `'one'` that at least one
does, where a bus passes iff its `base_kv` is missing or `≥ threshold`.
In the spec scenario (`base_kv` 69 and 138) the branch is dropped at
threshold 100 in mode `both` and kept at threshold 50. -/
theorem get_filtered_lines_spec :
    (∀ (kv_limit : ℚ) (branches : List BranchData) (busOf : String → BusData) (i : ℕ),
      (i ∈ get_filtered_lines false kv_limit branches busOf ↔
        i < branches.length ∧
          (busPasses kv_limit (busOf (branches.getD i ⟨"", ""⟩).from_bus) &&
           busPasses kv_limit (busOf (branches.getD i ⟨"", ""⟩).to_bus)) = true) ∧
      (i ∈ get_filtered_lines true kv_limit branches busOf ↔
        i < branches.length ∧
          (busPasses kv_limit (busOf (branches.getD i ⟨"", ""⟩).from_bus) ||
           busPasses kv_limit (busOf (branches.getD i ⟨"", ""⟩).to_bus)) = true)) ∧
    branchRetained false 100 ⟨some 69⟩ ⟨some 138⟩ = false ∧
    branchRetained false 50 ⟨some 69⟩ ⟨some 138⟩ = true := by
  have hret : ∀ (one : Bool) (kv : ℚ) (fb tb : BusData),
      branchRetained one kv fb tb =
        if one then busPasses kv fb || busPasses kv tb
        else busPasses kv fb && busPasses kv tb := by
    intro one kv fb tb
    cases one <;> cases fb <;> cases tb <;>
      rename_i fkv tkv <;> cases fkv <;> cases tkv <;>
      simp only [branchRetained, busPasses] <;>
      split_ifs <;> simp_all
  refine ⟨?_, ?_, ?_⟩
  · intro kv branches busOf i
    constructor <;>
    · simp only [get_filtered_lines, List.mem_filter, List.mem_range, hret]
      simp
  · rw [hret] ; simp [busPasses] ; norm_num
  · rw [hret] ; simp [busPasses] ; norm_num

/-- C6.  A `(bus, coef)` pair is included in the built linear expression
iff it is an entry of the row and `|coef| ≥ max(abs_tol, rel_tol * max|row|)`;
the included set is a pure function of the row and the tolerances, hence
identical across repeated builds. -/
theorem expr_included_pairs_spec (row : List (String × ℚ)) (abs_tol rel_tol : ℚ)
    (b : String) (c : ℚ) :
    (b, c) ∈ expr_included_pairs row abs_tol rel_tol ↔
      (b, c) ∈ row ∧ max abs_tol (rel_tol * rowAbsMax row) ≤ |c| := by
  simp [expr_included_pairs, List.mem_filter]

/-! ## List utilities used by the remaining theorems -/

theorem list_getD_set {α : Type} (v d : α) (l : List α) (k : ℕ)
    (h : k < l.length) : (l.set k v).getD k d = v := by
  induction l generalizing k with
  | nil => simp at h
  | cons a t ih =>
    cases k with
    | zero => rfl
    | succ k =>
      simp only [List.set, List.getD_cons_succ]
      exact ih k (by simpa using h)

theorem np_delete_np_insert {α : Type} (v : α) (l : List α) (i : ℕ)
    (h : i ≤ l.length) : np_delete (np_insert l i v) i = l := by
  induction i generalizing l with
  | zero => simp [np_insert, np_delete]
  | succ i ih =>
    cases l with
    | nil => simp at h
    | cons a t =>
      simp only [np_insert, np_delete, List.take_succ_cons, List.drop_succ_cons,
        List.cons_append, List.cons.injEq, true_and]
      exact ih t (by simpa using h)

theorem getD_np_insert {α : Type} (v d : α) (l : List α) (i : ℕ)
    (h : i ≤ l.length) : (np_insert l i v).getD i d = v := by
  induction i generalizing l with
  | zero => simp [np_insert]
  | succ i ih =>
    cases l with
    | nil => simp at h
    | cons a t =>
      simp only [np_insert, List.take_succ_cons, List.drop_succ_cons,
        List.cons_append, List.getD_cons_succ]
      exact ih t (by simpa using h)

theorem length_np_insert {α : Type} (v : α) (l : List α) (i : ℕ) :
    (np_insert l i v).length = l.length + 1 := by
  simp only [np_insert, List.length_append, List.length_take, List.length_cons,
    List.length_drop]
  omega

theorem indexOfP_lt_length {α : Type} (p : α → Bool) (l : List α) (j : ℕ)
    (h : indexOfP p l = some j) : j < l.length := by
  induction l generalizing j with
  | nil => simp [indexOfP] at h
  | cons a t ih =>
    simp only [indexOfP] at h
    by_cases hpa : p a
    · rw [if_pos hpa] at h
      cases h
      simp
    · rw [if_neg hpa] at h
      obtain ⟨j1, hj1, rfl⟩ := Option.map_eq_some'.mp h
      have := ih j1 hj1
      simp only [List.length_cons]
      omega

theorem filter_ne_eq_np_delete (rfb : String) (l : List String) (j : ℕ)
    (h : indexOfP (fun k => k == rfb) l = some j) (hcount : l.count rfb = 1) :
    l.filter (fun b => b ≠ rfb) = np_delete l j := by
  induction l generalizing j with
  | nil => simp [indexOfP] at h
  | cons a t ih =>
    simp only [indexOfP] at h
    by_cases hpa : (a == rfb) = true
    · rw [if_pos hpa] at h
      cases h
      have ha : a = rfb := by simpa using hpa
      subst ha
      have htc : t.count a = 0 := by
        simpa [List.count_cons] using hcount
      have hnotin : a ∉ t := List.count_eq_zero.mp htc
      have hfilter : t.filter (fun b => b ≠ a) = t :=
        List.filter_eq_self.mpr (fun b hb => by
          simp only [ne_eq, decide_eq_true_eq]
          exact fun hba => hnotin (hba ▸ hb))
      simp only [np_delete, List.take_zero, List.drop_succ_cons, List.drop_zero,
        List.nil_append]
      rw [List.filter_cons_of_neg (by simp)]
      exact hfilter
    · rw [if_neg hpa] at h
      obtain ⟨j1, hj1, rfl⟩ := Option.map_eq_some'.mp h
      have hane : a ≠ rfb := by simpa using hpa
      have htc : t.count rfb = 1 := by
        simpa [List.count_cons, hpa] using hcount
      have := ih j1 hj1 htc
      simp only [np_delete, List.take_succ_cons, List.drop_succ_cons,
        List.cons_append]
      rw [List.filter_cons_of_pos (by simpa using hane)]
      rw [this]
      rfl

/-! ## Theorems for claims C2, C3, C4, C8, C10 -/

/-- C2.  For a registered contingency outaging branch `k`, the flow delta
returned by `calculate_PFV_delta` cancels the base flow on `k` exactly:
`PFV[k] + PF_delta[k] = 0`, the entry being set by construction whenever
`k` is an index of the returned vector. -/
theorem contingency_zero_flow (e : VirtualPTDFMatrix) (cn : String)
    (comp : ContingencyComp) (k : ℕ) (PFV VA delta : List ℚ)
    (hc : alookup e.contingency_compensators cn = some comp)
    (hk : e.branchIndex comp.branch_out = some k)
    (h : calculate_PFV_delta e cn PFV VA = Except.ok delta)
    (hlen : k < delta.length) :
    PFV.getD k 0 + delta.getD k 0 = 0 := by
  unfold calculate_PFV_delta at h
  rw [hc] at h
  simp only [hk] at h
  injection h with h
  subst h
  rw [List.length_set] at hlen
  rw [list_getD_set _ _ _ _ hlen]
  ring

/-- C2, witness: in the miniature engine the contingency `c1` outages
branch `b1` (index 0); at base flow `[5]` the returned delta is `[-5]`
and the flows cancel. -/
theorem contingency_zero_flow_witness :
    ([5] : List ℚ).getD 0 0 + ([-5] : List ℚ).getD 0 0 = 0 :=
  contingency_zero_flow exEngine "c1" exComp 0 [5] [0, 0] [-5]
    (by rfl) (by rfl) (by rfl) (by decide)

/-- C3.  `get_branch_ptdf_const` returns exactly the row served by
`_get_ptdf_row` dotted with `phi_adjust_array` plus the branch's
phase-shift constant (exact rational equality, hence within any relative
floating-point epsilon). -/
theorem branch_const_row_consistency (e : VirtualPTDFMatrix)
    (s : PTDFRowCache) (bn : String) (row : List ℚ) (s1 : PTDFRowCache) (i : ℕ)
    (h : getPTDFRow e s bn = (Except.ok row, s1))
    (hi : e.branchIndex bn = some i) :
    get_branch_ptdf_const e s bn =
      (Except.ok (dot row e.phi_adjust_array +
        e.phase_shift_flow_adjuster_array.getD i 0), s1) := by
  unfold get_branch_ptdf_const
  rw [h]
  simp only [hi]

/-- C3, witness: in the miniature engine the constant for `b1` is the
computed row `[-1]` dotted with `phi_adjust` plus the phase-shift entry. -/
theorem branch_const_row_consistency_witness :
    get_branch_ptdf_const exEngine emptyCache "b1" =
      (Except.ok (dot [-1] exEngine.phi_adjust_array +
        exEngine.phase_shift_flow_adjuster_array.getD 0 0),
       ⟨[("b1", [-1])], [], [], 1⟩) :=
  branch_const_row_consistency exEngine emptyCache "b1" [-1]
    ⟨[("b1", [-1])], [], [], 1⟩ 0 (by rfl) (by rfl)

/-- C4.  Idempotent caching: if a `_get_ptdf_row` request returns `(r, s1)`,
the immediately repeated request returns the bit-identical vector `r` and
leaves the state `s1` (cache and solve counter included) unchanged — the
second call performs zero additional factorization solves. -/
theorem getPTDFRow_idempotent (e : VirtualPTDFMatrix) (s s1 : PTDFRowCache)
    (bn : String) (r : List ℚ)
    (h : getPTDFRow e s bn = (Except.ok r, s1)) :
    getPTDFRow e s1 bn = (Except.ok r, s1) ∧
    (getPTDFRow e s1 bn).2.solve_count = s1.solve_count := by
  have main : getPTDFRow e s1 bn = (Except.ok r, s1) := by
    unfold getPTDFRow at h ⊢
    cases hl : alookup s.ptdf_rows bn with
    | some row =>
      rw [hl] at h
      injection h with h1 h2
      injection h1 with h1
      subst h1
      subst h2
      rw [hl]
    | none =>
      rw [hl] at h
      cases hb : e.branchIndex bn with
      | none =>
        rw [hb] at h
        injection h with h1 h2
        exact absurd h1 (by simp)
      | some i =>
        rw [hb] at h
        injection h with h1 h2
        injection h1 with h1
        subst h1
        subst h2
        simp [alookup]
  exact ⟨main, by rw [main]⟩

/-- C4, witness: after the first request for `b1` populates the cache with
`[-1]` and one solve, the repeated request returns the same vector and the
very same state. -/
theorem getPTDFRow_idempotent_witness :
    getPTDFRow exEngine ⟨[("b1", [-1])], [], [], 1⟩ "b1" =
      (Except.ok [-1], ⟨[("b1", [-1])], [], [], 1⟩) :=
  (getPTDFRow_idempotent exEngine emptyCache ⟨[("b1", [-1])], [], [], 1⟩ "b1" [-1]
    (by rfl)).1

/-- C8.  A request for an unregistered key fails immediately with
`unknownEntity` (for a branch absent from the index map) or
`unknownContingency` (for a contingency name never registered), and the
returned state is exactly the pre-query state: caches, factorization and
constants are untouched and the engine stays usable. -/
theorem unknown_key_errors (e : VirtualPTDFMatrix) (s : PTDFRowCache)
    (bn cn bn2 : String) (i2 : ℕ)
    (h1 : alookup s.ptdf_rows bn = none)
    (h2 : e.branchIndex bn = none)
    (h3 : alookup s.contingency_rows (cn, bn2) = none)
    (h4 : e.branchIndex bn2 = some i2)
    (h5 : alookup e.contingency_compensators cn = none) :
    getPTDFRow e s bn = (Except.error (EgretError.unknownEntity bn), s) ∧
    getContingencyRow e s cn bn2 =
      (Except.error (EgretError.unknownContingency cn), s) := by
  constructor
  · unfold getPTDFRow
    rw [h1, h2]
  · unfold getContingencyRow
    rw [h3]
    simp only [h4, h5]

/-- C8, witness: branch `zz` is unregistered in the miniature engine and
contingency `nope` was never registered; both queries fail and leave the
empty cache unchanged. -/
theorem unknown_key_errors_witness :
    getPTDFRow exEngine emptyCache "zz" =
      (Except.error (EgretError.unknownEntity "zz"), emptyCache) :=
  (unknown_key_errors exEngine emptyCache "zz" "nope" "b1" 0
    (by rfl) (by rfl) (by rfl) (by rfl) (by rfl)).1

/-- C10.  Reference-bus insertion and removal are inverses: removing the
reference entry after inserting `v` at the reference position returns the
vector unchanged; and the reference-eliminated key tuple
`buses_keys_no_ref` is the full bus tuple with the (unique) reference entry
deleted, all other buses keeping their relative order. -/
theorem reference_bus_insert_remove_inverse (e : VirtualPTDFMatrix)
    (x : List ℚ) (v : ℚ) (r : ℕ)
    (hr : e.busIndex e.reference_bus = some r)
    (hx : r ≤ x.length)
    (hcount : e.buses_keys.count e.reference_bus = 1) :
    (insert_reference_bus e x v).bind (remove_reference_bus e) = some x ∧
    e.buses_keys_no_ref = np_delete e.buses_keys r := by
  constructor
  · simp only [insert_reference_bus, remove_reference_bus, hr,
      Option.map_some', Option.some_bind]
    rw [np_delete_np_insert v x r hx]
  · exact filter_ne_eq_np_delete e.reference_bus e.buses_keys r hr hcount

/-- C10, witness: in the miniature engine (`reference_bus = A` at position
0), inserting then removing over the one-entry reduced vector `[7]` is the
identity. -/
theorem reference_bus_insert_remove_inverse_witness :
    (insert_reference_bus exEngine [7] 3).bind (remove_reference_bus exEngine) =
      some [7] :=
  (reference_bus_insert_remove_inverse exEngine [7] 3 0
    (by rfl) (by decide) (by rfl)).1

/-! ## Claim C7: LMP length and reference-bus reinsertion -/

theorem accumulate_LMPCC_length (s : PTDFRowCache) (m : ℕ)
    (hrows : ∀ key row, alookup s.contingency_rows key = some row → row.length = m)
    (duals : List ((String × String) × ℚ)) :
    ∀ (acc out : List ℚ), accumulate_LMPCC s duals acc = some out →
      acc.length = m → out.length = m := by
  induction duals with
  | nil =>
    intro acc out h hacc
    simp only [accumulate_LMPCC, Option.some.injEq] at h
    rw [← h]
    exact hacc
  | cons p rest ih =>
    obtain ⟨key, dv⟩ := p
    intro acc out h hacc
    simp only [accumulate_LMPCC] at h
    by_cases hdv : dv = 0
    · rw [if_pos hdv] at h
      exact ih acc out h hacc
    · rw [if_neg hdv] at h
      cases hl : alookup s.contingency_rows key with
      | none => rw [hl] at h; cases h
      | some row =>
        rw [hl] at h
        refine ih _ out h ?_
        have hrow := hrows key row hl
        simp [vadd, smul, List.length_zipWith, hacc, hrow]

/-- C7.  When every transpose solve answers in the reference-eliminated bus
space and every cached contingency row lives there too, `calculate_LMP`
returns a vector of length `n_bus` (not `n_bus - 1`), and its entry at the
reference-bus position is exactly the supplied energy dual. -/
theorem calculate_LMP_spec (e : VirtualPTDFMatrix) (s : PTDFRowCache)
    (PFD PFID : List ℚ) (cont_duals : List ((String × String) × ℚ))
    (LMPE : ℚ) (out : List ℚ) (r : ℕ)
    (hsolve : ∀ v, (e.MLU_solveT v).length = e.buses_keys.length - 1)
    (hrows : ∀ key row, alookup s.contingency_rows key = some row →
      row.length = e.buses_keys.length - 1)
    (hr : e.busIndex e.reference_bus = some r)
    (h : calculate_LMP e s PFD PFID cont_duals LMPE = some out) :
    out.length = e.buses_keys.length ∧ out.getD r 0 = LMPE := by
  have hrlt : r < e.buses_keys.length := indexOfP_lt_length _ _ _ hr
  have hend : ∀ l : List ℚ, l.length = e.buses_keys.length - 1 →
      insert_reference_bus e (l.map (fun x => LMPE + x)) LMPE = some out →
      out.length = e.buses_keys.length ∧ out.getD r 0 = LMPE := by
    intro l hl hins
    simp only [insert_reference_bus, hr, Option.map_some', Option.some.injEq] at hins
    constructor
    · rw [← hins, length_np_insert, List.length_map, hl]
      omega
    · rw [← hins]
      apply getD_np_insert
      rw [List.length_map, hl]
      omega
  simp only [calculate_LMP] at h
  by_cases hemp : e.contingencies.isEmpty
  · rw [if_pos hemp] at h
    simp only [Option.some_bind] at h
    refine hend _ ?_ h
    simp [vadd, List.length_zipWith, hsolve]
  · rw [if_neg hemp] at h
    cases hacc : accumulate_LMPCC s cont_duals
        (zeros (e.MLU_solveT (vneg (matVec e.B_dA_masked.transpose PFD))).length) with
    | none => rw [hacc] at h; cases h
    | some lmpcc =>
      rw [hacc] at h
      simp only [Option.map_some', Option.some_bind] at h
      refine hend _ ?_ h
      have hlen0 : (zeros (e.MLU_solveT (vneg (matVec e.B_dA_masked.transpose PFD))).length).length
          = e.buses_keys.length - 1 := by
        simp [zeros, hsolve]
      have hlmpcc := accumulate_LMPCC_length s (e.buses_keys.length - 1) hrows
        cont_duals _ lmpcc hacc hlen0
      simp [vadd, List.length_zipWith, hsolve, hlmpcc]

/-- C7, witness: the miniature two-bus engine with zero duals and energy
price 5 yields the vector `[5, 5]` of full bus length 2 whose reference
entry (position 0) is the energy dual. -/
theorem calculate_LMP_spec_witness :
    ([5, 5] : List ℚ).length = exEngineLMP.buses_keys.length ∧
      ([5, 5] : List ℚ).getD 0 0 = 5 :=
  calculate_LMP_spec exEngineLMP emptyCache [] [] [] 5 [5, 5] 0
    (fun _ => rfl) (fun key row h => by simp [emptyCache, alookup] at h)
    (by rfl) (by with_unfolding_all rfl)

/-! ## Claim C9: order-independent cache population -/

theorem cacheView_getPTDFRow (e : VirtualPTDFMatrix) (s : PTDFRowCache)
    (bn : String) (q : ReqKey) :
    cacheView (getPTDFRow e s bn).2 q =
      if q = ReqKey.branch bn ∧ cacheView s (ReqKey.branch bn) = none ∧
          (computeOf e (ReqKey.branch bn)).isSome
      then computeOf e (ReqKey.branch bn)
      else cacheView s q := by
  unfold getPTDFRow
  cases hl : alookup s.ptdf_rows bn with
  | some row =>
    simp only [hl]
    rw [if_neg (by simp [cacheView, hl])]
  | none =>
    simp only [hl]
    cases hb : e.branchIndex bn with
    | none =>
      simp only [hb]
      rw [if_neg (by simp [computeOf, rowOf, hb])]
    | some i =>
      simp only [hb]
      cases q with
      | branch bn2 =>
        by_cases hbn : bn2 = bn
        · subst hbn
          rw [if_pos (by simp [cacheView, hl, computeOf, rowOf, hb])]
          simp [cacheView, alookup, computeOf, rowOf, hb]
        · rw [if_neg (by simp [hbn])]
          simp [cacheView, alookup, hbn]
      | iface iname =>
        rw [if_neg (by simp)]
        simp [cacheView]
      | cont cn bn2 =>
        rw [if_neg (by simp)]
        simp [cacheView]

theorem cacheView_getInterfaceRow (e : VirtualPTDFMatrix) (s : PTDFRowCache)
    (iname : String) (q : ReqKey) :
    cacheView (getInterfaceRow e s iname).2 q =
      if q = ReqKey.iface iname ∧ cacheView s (ReqKey.iface iname) = none ∧
          (computeOf e (ReqKey.iface iname)).isSome
      then computeOf e (ReqKey.iface iname)
      else cacheView s q := by
  unfold getInterfaceRow
  cases hl : alookup s.interface_rows iname with
  | some row =>
    simp only [hl]
    rw [if_neg (by simp [cacheView, hl])]
  | none =>
    simp only [hl]
    cases hb : e.interfaceIndex iname with
    | none =>
      simp only [hb]
      rw [if_neg (by simp [computeOf, hb])]
    | some i =>
      simp only [hb]
      cases q with
      | branch bn2 =>
        rw [if_neg (by simp)]
        simp [cacheView]
      | iface iname2 =>
        by_cases hbn : iname2 = iname
        · subst hbn
          rw [if_pos (by simp [cacheView, hl, computeOf, hb])]
          simp [cacheView, alookup, computeOf, hb]
        · rw [if_neg (by simp [hbn])]
          simp [cacheView, alookup, hbn]
      | cont cn bn2 =>
        rw [if_neg (by simp)]
        simp [cacheView]

theorem cacheView_getContingencyRow (e : VirtualPTDFMatrix) (s : PTDFRowCache)
    (cn bn : String) (q : ReqKey) :
    cacheView (getContingencyRow e s cn bn).2 q =
      if q = ReqKey.cont cn bn ∧ cacheView s (ReqKey.cont cn bn) = none ∧
          (computeOf e (ReqKey.cont cn bn)).isSome
      then computeOf e (ReqKey.cont cn bn)
      else cacheView s q := by
  unfold getContingencyRow
  cases hl : alookup s.contingency_rows (cn, bn) with
  | some row =>
    simp only [hl]
    rw [if_neg (by simp [cacheView, hl])]
  | none =>
    simp only [hl]
    cases hb : e.branchIndex bn with
    | none =>
      simp only [hb]
      rw [if_neg (by simp [computeOf, hb])]
    | some i =>
      simp only [hb]
      cases hcc : alookup e.contingency_compensators cn with
      | none =>
        simp only [hcc]
        rw [if_neg (by simp [computeOf, hb, hcc])]
      | some cc =>
        simp only [hcc]
        cases q with
        | branch bn2 =>
          rw [if_neg (by simp)]
          simp [cacheView]
        | iface iname =>
          rw [if_neg (by simp)]
          simp [cacheView]
        | cont cn2 bn2 =>
          by_cases hkey : cn2 = cn ∧ bn2 = bn
          · obtain ⟨rfl, rfl⟩ := hkey
            rw [if_pos (by simp [cacheView, hl, computeOf, hb, hcc])]
            simp [cacheView, alookup, computeOf, hb, hcc]
          · rw [if_neg (by simp; tauto)]
            have hne : ¬ ((cn2, bn2) = (cn, bn)) := by simp; tauto
            simp [cacheView, alookup, hne]

theorem cacheView_stepReq (e : VirtualPTDFMatrix) (s : PTDFRowCache)
    (k q : ReqKey) :
    cacheView (stepReq e s k) q =
      if q = k ∧ cacheView s k = none ∧ (computeOf e k).isSome
      then computeOf e k else cacheView s q := by
  cases k with
  | branch bn => exact cacheView_getPTDFRow e s bn q
  | iface iname => exact cacheView_getInterfaceRow e s iname q
  | cont cn bn => exact cacheView_getContingencyRow e s cn bn q

theorem coherent_stepReq (e : VirtualPTDFMatrix) (s : PTDFRowCache)
    (k : ReqKey) (hc : Coherent e s) : Coherent e (stepReq e s k) := by
  intro q row h
  rw [cacheView_stepReq] at h
  by_cases hcond : q = k ∧ cacheView s k = none ∧ (computeOf e k).isSome
  · rw [if_pos hcond] at h
    rw [hcond.1]
    exact h
  · rw [if_neg hcond] at h
    exact hc q row h

theorem cacheView_runSeq (e : VirtualPTDFMatrix) (l : List ReqKey) :
    ∀ (s : PTDFRowCache), Coherent e s → ∀ q,
      cacheView (runSeq e s l) q =
        if (cacheView s q).isSome ∨ (q ∈ l ∧ (computeOf e q).isSome)
        then computeOf e q else none := by
  induction l with
  | nil =>
    intro s hc q
    simp only [runSeq, List.not_mem_nil, false_and, or_false]
    cases hl : cacheView s q with
    | none => simp
    | some row =>
      have := hc q row hl
      simp [this]
  | cons k ks ih =>
    intro s hc q
    simp only [runSeq]
    rw [ih _ (coherent_stepReq e s k hc) q]
    rw [cacheView_stepReq]
    refine if_congr ?_ rfl rfl
    by_cases hcond : q = k ∧ cacheView s k = none ∧ (computeOf e k).isSome
    · rw [if_pos hcond]
      obtain ⟨hqk, hnone, hreg⟩ := hcond
      subst hqk
      simp [hnone, hreg, List.mem_cons]
    · rw [if_neg hcond]
      simp only [List.mem_cons]
      constructor
      · rintro (h | ⟨hmem, hreg⟩)
        · exact Or.inl h
        · exact Or.inr ⟨Or.inr hmem, hreg⟩
      · rintro (h | ⟨hqk | hmem, hreg⟩)
        · exact Or.inl h
        · subst hqk
          cases ho : cacheView s q with
          | none => exact absurd ⟨rfl, ho, hreg⟩ hcond
          | some row => exact Or.inl (by simp [ho])
        · exact Or.inr ⟨hmem, hreg⟩

/-- C9.  Cache population is order-independent: for two request sequences
over branch/interface/contingency keys that are permutations of each other,
issued from any coherent state (the empty cache of a fresh engine in
particular), the final caches have identical contents on every key, and a
further request returns the same vector for the same key in both — no
hidden state beyond the frozen factorization and the accumulated cache
affects any result. -/
theorem cache_order_independent (e : VirtualPTDFMatrix) (s : PTDFRowCache)
    (l1 l2 : List ReqKey) (hp : l1.Perm l2) (hc : Coherent e s) :
    (∀ q, cacheView (runSeq e s l1) q = cacheView (runSeq e s l2) q) ∧
    (∀ q, reqResult e (runSeq e s l1) q = reqResult e (runSeq e s l2) q) := by
  have hl : ∀ q, cacheView (runSeq e s l1) q = cacheView (runSeq e s l2) q := by
    intro q
    rw [cacheView_runSeq e l1 s hc q, cacheView_runSeq e l2 s hc q]
    refine if_congr ?_ rfl rfl
    rw [hp.mem_iff]
  refine ⟨hl, fun q => ?_⟩
  cases q with
  | branch bn =>
    have h := hl (ReqKey.branch bn)
    simp only [cacheView] at h
    simp only [reqResult]
    unfold getPTDFRow
    rw [h]
    cases halookup : alookup (runSeq e s l2).ptdf_rows bn with
    | some row => simp only [halookup]
    | none =>
      simp only [halookup]
      cases hb : e.branchIndex bn <;> simp only [hb]
  | iface iname =>
    have h := hl (ReqKey.iface iname)
    simp only [cacheView] at h
    simp only [reqResult]
    unfold getInterfaceRow
    rw [h]
    cases halookup : alookup (runSeq e s l2).interface_rows iname with
    | some row => simp only [halookup]
    | none =>
      simp only [halookup]
      cases hb : e.interfaceIndex iname <;> simp only [hb]
  | cont cn bn =>
    have h := hl (ReqKey.cont cn bn)
    simp only [cacheView] at h
    simp only [reqResult]
    unfold getContingencyRow
    rw [h]
    cases halookup : alookup (runSeq e s l2).contingency_rows (cn, bn) with
    | some row => simp only [halookup]
    | none =>
      simp only [halookup]
      cases hb : e.branchIndex bn with
      | none => simp only [hb]
      | some i =>
        simp only [hb]
        cases hcc : alookup e.contingency_compensators cn <;> simp only [hcc]

/-- C9, witness: requesting the branch row `b1` and the contingency row
`(c1, b1)` in either order leaves caches agreeing on the `b1` entry. -/
theorem cache_order_independent_witness :
    cacheView (runSeq exEngine emptyCache
        [ReqKey.branch "b1", ReqKey.cont "c1" "b1"]) (ReqKey.branch "b1") =
      cacheView (runSeq exEngine emptyCache
        [ReqKey.cont "c1" "b1", ReqKey.branch "b1"]) (ReqKey.branch "b1") :=
  (cache_order_independent exEngine emptyCache
    [ReqKey.branch "b1", ReqKey.cont "c1" "b1"]
    [ReqKey.cont "c1" "b1", ReqKey.branch "b1"]
    (List.Perm.swap (ReqKey.cont "c1" "b1") (ReqKey.branch "b1") [])
    (fun q row h => by
      cases q <;> simp [emptyCache, cacheView, alookup] at h)).1
    (ReqKey.branch "b1")


end Egret
